import Mathlib

/-!
Verification of the `.split`-file splitter (`Templates/split.py`).

The program reads one text file and splits it on the regular expression
`// *FILE: *([^ ]+) *\n` (Python `re.split` with one capture group), then
writes each captured name / following segment pair to a file, plus a
preamble file when text precedes the first match.

The embedding below models the regular expression with an explicit
backtracking matcher (leftmost match, greedy repetition, exactly as
Python's `re` engine behaves on this pattern), the scan of `re.split`,
`os.path.splitext`, and the command-line driver as a function from the
argument vector and file contents to a trace of file-system events.
-/

namespace Split

/-- Matches the regex suffix ` *\n` (zero or more spaces, then a newline)
at the start of the input; returns the consumed characters and the rest.
Greedy repetition on spaces is deterministic here because a shorter run of
spaces would have to be followed by `\n`, which is not a space. -/
def matchSpacesNl : List Char → Option (List Char × List Char)
  | [] => none
  | c :: rest =>
    if c = '\n' then some ([c], rest)
    else if c = ' ' then (matchSpacesNl rest).map fun p => (c :: p.1, p.2)
    else none

/-- Matches the regex suffix `[^ ]* *\n` at the start of the input with
greedy backtracking: prefer putting the next non-space character into the
group, fall back to closing the group and matching ` *\n`. Returns the
group extension, the consumed characters, and the rest. Note that `[^ ]`
matches every character except the space, newlines included. -/
def matchStarTail : List Char → Option (List Char × List Char × List Char)
  | [] => none
  | c :: rest =>
    if c = ' ' then (matchSpacesNl (c :: rest)).map fun p => ([], p.1, p.2)
    else
      match matchStarTail rest with
      | some (g, co, r) => some (c :: g, c :: co, r)
      | none => (matchSpacesNl (c :: rest)).map fun p => ([], p.1, p.2)

/-- Matches the regex suffix `([^ ]+) *\n`: one non-space character then
`[^ ]* *\n`. Returns (captured group, consumed characters, rest). -/
def matchNamePart : List Char → Option (List Char × List Char × List Char)
  | [] => none
  | c :: rest =>
    if c = ' ' then none
    else (matchStarTail rest).map fun p => (c :: p.1, c :: p.2.1, p.2.2)

/-- Matches the regex suffix ` *([^ ]+) *\n`: greedy spaces, preferring to
consume a space, falling back to starting the group at the current
position (which fails on a space, as the regex engine's backtracking
would). -/
def matchSpacesThenName : List Char → Option (List Char × List Char × List Char)
  | [] => none
  | c :: rest =>
    if c = ' ' then
      match matchSpacesThenName rest with
      | some (n, co, r) => some (n, c :: co, r)
      | none => matchNamePart (c :: rest)
    else matchNamePart (c :: rest)

/-- Matches the regex suffix `FILE: *([^ ]+) *\n`: the five literal
characters then ` *([^ ]+) *\n`. -/
def tryFILE (u : List Char) : Option (List Char × List Char × List Char) :=
  match u with
  | c1 :: c2 :: c3 :: c4 :: c5 :: rest =>
    if c1 = 'F' ∧ c2 = 'I' ∧ c3 = 'L' ∧ c4 = 'E' ∧ c5 = ':' then
      (matchSpacesThenName rest).map fun p => (p.1, c1 :: c2 :: c3 :: c4 :: c5 :: p.2.1, p.2.2)
    else none
  | _ => none

/-- Matches the regex suffix ` *FILE: *([^ ]+) *\n`. -/
def matchAfterSlashes : List Char → Option (List Char × List Char × List Char)
  | [] => none
  | c :: rest =>
    if c = ' ' then
      match matchAfterSlashes rest with
      | some (n, co, r) => some (n, c :: co, r)
      | none => tryFILE (c :: rest)
    else tryFILE (c :: rest)

/-- Matches the whole marker regex `// *FILE: *([^ ]+) *\n` at the start
of the input. Returns (captured target name, consumed match text, rest). -/
def matchMarkerAt : List Char → Option (List Char × List Char × List Char)
  | c1 :: c2 :: rest =>
    if c1 = '/' ∧ c2 = '/' then
      (matchAfterSlashes rest).map fun p => (p.1, c1 :: c2 :: p.2.1, p.2.2)
    else none
  | _ => none

/-- Finds the leftmost match of the marker regex in the input, exactly as
the `re` engine scans: try to match at each position from the left.
Returns (text before the match, match text, captured name, rest). -/
def splitOnce : List Char → Option (List Char × List Char × List Char × List Char)
  | [] => none
  | c :: cs =>
    match matchMarkerAt (c :: cs) with
    | some (n, co, r) => some ([], co, n, r)
    | none => (splitOnce cs).map fun q => (c :: q.1, q.2.1, q.2.2.1, q.2.2.2)

/-- Fuel-indexed scan of `re.split`: repeatedly take the leftmost match
and continue after it. Returns the leading unmatched text and, for every
match in order, (match text, captured name, following segment). Every
match consumes at least one character, so fuel equal to the input length
is always sufficient. -/
def splitAllFuel : Nat → List Char → List Char × List (List Char × List Char × List Char)
  | 0, u => (u, [])
  | f + 1, u =>
    match splitOnce u with
    | none => (u, [])
    | some (b, co, n, r) =>
      let p := splitAllFuel f r
      (b, (co, n, p.1) :: p.2)

/-- The scan underlying `re.compile(r'// *FILE: *([^ ]+) *\n').split`:
the leading segment plus, in document order, each match's text, captured
target name, and the segment that follows it. -/
def splitAll (u : List Char) : List Char × List (List Char × List Char × List Char) :=
  splitAllFuel u.length u

section AppendLemmas

theorem matchSpacesNl_append : ∀ {u : List Char} {p},
    matchSpacesNl u = some p → u = p.1 ++ p.2 ∧ p.1 ≠ [] := by
  intro u
  induction u with
  | nil => intro p h; simp [matchSpacesNl] at h
  | cons c rest ih =>
    intro p h
    simp only [matchSpacesNl] at h
    by_cases hn : c = '\n'
    · rw [if_pos hn] at h
      injection h with h
      subst h
      exact ⟨rfl, by simp⟩
    · rw [if_neg hn] at h
      by_cases hs : c = ' '
      · rw [if_pos hs] at h
        rcases Option.map_eq_some'.mp h with ⟨q, hq, hpq⟩
        rcases ih hq with ⟨heq, hne⟩
        subst hpq
        exact ⟨by simp [heq], by simp⟩
      · rw [if_neg hs] at h
        simp at h

theorem matchStarTail_append : ∀ {u : List Char} {t},
    matchStarTail u = some t → u = t.2.1 ++ t.2.2 ∧ t.2.1 ≠ [] := by
  intro u
  induction u with
  | nil => intro t h; simp [matchStarTail] at h
  | cons c rest ih =>
    intro t h
    simp only [matchStarTail] at h
    by_cases hs : c = ' '
    · rw [if_pos hs] at h
      rcases Option.map_eq_some'.mp h with ⟨q, hq, hpq⟩
      rcases matchSpacesNl_append hq with ⟨heq, hne⟩
      subst hpq
      exact ⟨heq, hne⟩
    · rw [if_neg hs] at h
      rcases hrec : matchStarTail rest with _ | ⟨g, go, gr⟩
      · rw [hrec] at h
        rcases Option.map_eq_some'.mp h with ⟨q, hq, hpq⟩
        rcases matchSpacesNl_append hq with ⟨heq, hne⟩
        subst hpq
        exact ⟨heq, hne⟩
      · rw [hrec] at h
        injection h with h
        subst h
        rcases ih hrec with ⟨heq, hne⟩
        exact ⟨by simpa using heq, by simp⟩

theorem matchNamePart_append : ∀ {u : List Char} {t},
    matchNamePart u = some t → u = t.2.1 ++ t.2.2 ∧ t.2.1 ≠ [] := by
  intro u t h
  match u with
  | [] => simp [matchNamePart] at h
  | c :: rest =>
    simp only [matchNamePart] at h
    by_cases hs : c = ' '
    · rw [if_pos hs] at h; simp at h
    · rw [if_neg hs] at h
      rcases Option.map_eq_some'.mp h with ⟨q, hq, hpq⟩
      rcases matchStarTail_append hq with ⟨heq, hne⟩
      subst hpq
      exact ⟨by simp [heq], by simp⟩

theorem matchSpacesThenName_append : ∀ {u : List Char} {t},
    matchSpacesThenName u = some t → u = t.2.1 ++ t.2.2 ∧ t.2.1 ≠ [] := by
  intro u
  induction u with
  | nil => intro t h; simp [matchSpacesThenName] at h
  | cons c rest ih =>
    intro t h
    simp only [matchSpacesThenName] at h
    by_cases hs : c = ' '
    · rw [if_pos hs] at h
      rcases hrec : matchSpacesThenName rest with _ | ⟨n, no, nr⟩
      · rw [hrec] at h
        exact matchNamePart_append h
      · rw [hrec] at h
        injection h with h
        subst h
        rcases ih hrec with ⟨heq, hne⟩
        exact ⟨by simpa using heq, by simp⟩
    · rw [if_neg hs] at h
      exact matchNamePart_append h

theorem tryFILE_append : ∀ {u : List Char} {t},
    tryFILE u = some t → u = t.2.1 ++ t.2.2 ∧ t.2.1 ≠ [] := by
  intro u t h
  match u with
  | [] => simp [tryFILE] at h
  | [c1] => simp [tryFILE] at h
  | [c1, c2] => simp [tryFILE] at h
  | [c1, c2, c3] => simp [tryFILE] at h
  | [c1, c2, c3, c4] => simp [tryFILE] at h
  | c1 :: c2 :: c3 :: c4 :: c5 :: rest =>
    simp only [tryFILE] at h
    split at h
    · rcases Option.map_eq_some'.mp h with ⟨q, hq, hpq⟩
      rcases matchSpacesThenName_append hq with ⟨heq, hne⟩
      subst hpq
      exact ⟨by simp [heq], by simp⟩
    · simp at h

theorem matchAfterSlashes_append : ∀ {u : List Char} {t},
    matchAfterSlashes u = some t → u = t.2.1 ++ t.2.2 ∧ t.2.1 ≠ [] := by
  intro u
  induction u with
  | nil => intro t h; simp [matchAfterSlashes] at h
  | cons c rest ih =>
    intro t h
    simp only [matchAfterSlashes] at h
    by_cases hs : c = ' '
    · rw [if_pos hs] at h
      rcases hrec : matchAfterSlashes rest with _ | ⟨n, no, nr⟩
      · rw [hrec] at h
        exact tryFILE_append h
      · rw [hrec] at h
        injection h with h
        subst h
        rcases ih hrec with ⟨heq, hne⟩
        exact ⟨by simpa using heq, by simp⟩
    · rw [if_neg hs] at h
      exact tryFILE_append h

theorem matchMarkerAt_append : ∀ {u : List Char} {t},
    matchMarkerAt u = some t → u = t.2.1 ++ t.2.2 ∧ t.2.1 ≠ [] := by
  intro u t h
  match u with
  | [] => simp [matchMarkerAt] at h
  | [c1] => simp [matchMarkerAt] at h
  | c1 :: c2 :: rest =>
    simp only [matchMarkerAt] at h
    split at h
    · rcases Option.map_eq_some'.mp h with ⟨q, hq, hpq⟩
      rcases matchAfterSlashes_append hq with ⟨heq, hne⟩
      subst hpq
      exact ⟨by simp [heq], by simp⟩
    · simp at h

theorem splitOnce_append : ∀ {u : List Char} {q},
    splitOnce u = some q → u = q.1 ++ q.2.1 ++ q.2.2.2 ∧ q.2.1 ≠ [] := by
  intro u
  induction u with
  | nil => intro q h; simp [splitOnce] at h
  | cons c cs ih =>
    intro q h
    simp only [splitOnce] at h
    rcases hm : matchMarkerAt (c :: cs) with _ | ⟨n, co, r⟩
    · rw [hm] at h
      rcases Option.map_eq_some'.mp h with ⟨p, hp, hpq⟩
      rcases ih hp with ⟨heq, hne⟩
      subst hpq
      refine ⟨?_, hne⟩
      simpa using heq
    · rw [hm] at h
      injection h with h
      subst h
      rcases matchMarkerAt_append hm with ⟨heq, hne⟩
      exact ⟨by simpa using heq, hne⟩

theorem splitOnce_rest_lt {u : List Char} {q} (h : splitOnce u = some q) :
    q.2.2.2.length < u.length := by
  rcases splitOnce_append h with ⟨heq, hne⟩
  subst heq
  have : 0 < q.2.1.length := List.length_pos.mpr hne
  simp [List.length_append]
  omega

end AppendLemmas

section FuelLemmas

theorem splitAllFuel_canon : ∀ (f : Nat), ∀ {u : List Char},
    u.length ≤ f → splitAllFuel f u = splitAll u := by
  intro f
  induction f using Nat.strong_induction_on with
  | _ f ih =>
    intro u hu
    match f with
    | 0 =>
      have : u = [] := List.length_eq_zero.mp (Nat.le_zero.mp hu)
      subst this
      rfl
    | f + 1 =>
      rw [splitAll]
      rcases hs : splitOnce u with _ | ⟨b, co, n, r⟩
      · match u with
        | [] => rfl
        | c :: cs => simp only [splitAllFuel, hs, List.length_cons]
      · have hr : r.length < u.length := splitOnce_rest_lt hs
        match u with
        | [] => simp [splitOnce] at hs
        | c :: cs =>
          simp only [splitAllFuel, hs, List.length_cons]
          have h1 : splitAllFuel f r = splitAll r := by
            apply ih f (Nat.lt_succ_self f)
            exact Nat.le_of_lt_succ (Nat.lt_of_lt_of_le hr hu)
          have h2 : splitAllFuel cs.length r = splitAll r := by
            apply ih cs.length (Nat.lt_of_lt_of_le (Nat.lt_succ_self _) hu)
            exact Nat.le_of_lt_succ hr
          rw [h1, h2]

theorem splitAll_eq (u : List Char) : splitAll u =
    match splitOnce u with
    | none => (u, [])
    | some (b, co, n, r) => (b, (co, n, (splitAll r).1) :: (splitAll r).2) := by
  rcases hs : splitOnce u with _ | ⟨b, co, n, r⟩
  · match u with
    | [] => rfl
    | c :: cs =>
      rw [splitAll]
      simp only [splitAllFuel, hs, List.length_cons]
  · have hr : r.length < u.length := splitOnce_rest_lt hs
    match u with
    | [] => simp [splitOnce] at hs
    | c :: cs =>
      rw [splitAll]
      simp only [splitAllFuel, hs, List.length_cons]
      rw [splitAllFuel_canon cs.length (Nat.le_of_lt_succ hr)]

end FuelLemmas

/-- String-level view of `splitAll`: the leading segment plus, for every
match in document order, (match text, captured target name, following
segment). -/
def splitAllStr (t : String) : String × List (String × String × String) :=
  ((splitAll t.data).1.asString,
   (splitAll t.data).2.map fun p => (p.1.asString, p.2.1.asString, p.2.2.asString))

/-- The list returned by `re.compile(r'// *FILE: *([^ ]+) *\n').split(text)`:
the text before the first match, then alternately each match's captured
group and the text following the match. -/
def reSplit (t : String) : List String :=
  (splitAllStr t).1 :: ((splitAllStr t).2.map fun p => [p.2.1, p.2.2]).flatten

/-- The source's `pairwise`: `zip(gen, gen)` over a single iterator pairs
up consecutive elements, dropping a trailing odd element. -/
def pairwise {α : Type _} : List α → List (α × α)
  | a :: b :: rest => (a, b) :: pairwise rest
  | _ => []

/-- The sequence of `(file name, contents)` writes the program performs:
`parsed.pop(0)` is the preamble, exported under the stripped input name
when non-empty, then each `pairwise` pair `(sub_name, sub_contents)` is
exported in order. -/
def splitWrites (strippedName : String) (text : String) : List (String × String) :=
  let parsed := reSplit text
  let mainContents := parsed.headD ""
  (if mainContents ≠ "" then [(strippedName, mainContents)] else []) ++ pairwise parsed.tail

/-- Index of the last occurrence of a character in a list. -/
def lastIndexOf (c : Char) : List Char → Option Nat
  | [] => none
  | x :: xs =>
    match lastIndexOf c xs with
    | some i => some (i + 1)
    | none => if x = c then some 0 else none

/-- CPython's `os.path.splitext` on POSIX paths: split at the last dot
that lies after the last path separator, unless every character between
the separator and that dot is itself a dot (leading dots of the basename
never start an extension). -/
def splitextChars (p : List Char) : List Char × List Char :=
  match lastIndexOf '.' p with
  | none => (p, [])
  | some dot =>
    let sep : Nat :=
      match lastIndexOf '/' p with
      | none => 0
      | some s => s + 1
    if sep ≤ dot then
      if (List.range (dot - sep)).any fun i => p.getD (sep + i) ' ' != '.' then
        (p.take dot, p.drop dot)
      else (p, [])
    else (p, [])

/-- String-level `os.path.splitext`. -/
def splitext (p : String) : String × String :=
  ((splitextChars p.data).1.asString, (splitextChars p.data).2.asString)

/-- A file-system action performed by the program: opening the input file
for reading, or writing a named file with the given contents. -/
inductive FileEvent where
  | read (name : String) : FileEvent
  | write (name : String) (contents : String) : FileEvent
deriving DecidableEq

/-- The command-line driver: given the argument vector (program name
included, as in `sys.argv`) and the contents of the input file, produce
the file-system events in order together with the message of a failed
assertion, if any. The two `argc` assertions and the extension assertion
all run before the input file is opened. -/
def runSplitter (argv : List String) (content : String) : List FileEvent × Option String :=
  if argv.length < 2 then ([], some "Expected file path argument")
  else if 2 < argv.length then ([], some "Too many arguments")
  else
    let name := argv.getD 1 ""
    let stripped := (splitext name).1
    let ext := (splitext name).2
    if ext ≠ ".split" then ([], some "Expected `.split` file")
    else
      (FileEvent.read name :: (splitWrites stripped content).map fun w => FileEvent.write w.1 w.2,
       none)

/-- Applies a sequence of writes to a file system (a map from names to
contents): each write replaces the full contents of the named file. -/
def applyWrites (ws : List (String × String)) (fs : String → Option String) :
    String → Option String :=
  ws.foldl (fun acc w => fun n => if n = w.1 then some w.2 else acc n) fs

/-- Contents of the last write to `n` in the list, if any. -/
def lastWriteOf (ws : List (String × String)) (n : String) : Option String :=
  ws.foldl (fun acc w => if w.1 = n then some w.2 else acc) none

/-- A run of `k` spaces. -/
def spacesChars (k : Nat) : List Char := List.replicate k ' '

/-- Shape of a marker match of the source's regular expression: exactly
two slashes, spaces, the literal `FILE:`, spaces, the captured name
(non-empty and space-free, but possibly containing newlines), spaces,
then a newline. -/
def markerShape (co n : List Char) : Prop :=
  ∃ i j k, co = '/' :: '/' :: (spacesChars i ++
      ('F' :: 'I' :: 'L' :: 'E' :: ':' :: (spacesChars j ++ n ++ spacesChars k ++ ['\n'])))
    ∧ n ≠ [] ∧ ' ' ∉ n

/-- Inline whitespace, for the spec's claimed marker-line pattern. -/
def specWs (c : Char) : Bool := c == ' ' || c == '\t'

/-- Character allowed in the spec's claimed target name: not whitespace
and not a newline. -/
def specNameChar (c : Char) : Bool := !specWs c && c != '\n'

/-- The claimed marker-line pattern, following the spec's words: zero or
more `/` characters, optional whitespace, literal `FILE:`, optional
whitespace, a contiguous run of non-whitespace characters (the target
name), optional trailing whitespace, then the newline ending the line. -/
def specLineIsMarker (s : String) : Bool :=
  let l1 := s.data.dropWhile fun c => c = '/'
  let l2 := l1.dropWhile specWs
  match l2 with
  | 'F' :: 'I' :: 'L' :: 'E' :: ':' :: l3 =>
    let l4 := l3.dropWhile specWs
    let name := l4.takeWhile specNameChar
    let l5 := l4.dropWhile specNameChar
    !name.isEmpty && (l5.dropWhile specWs == ['\n'])
  | _ => false

/-- Concatenation of a list of strings, in order. -/
def concatStrings (l : List String) : String := l.foldr (fun a b => a ++ b) ""

section SplitLemmas

theorem splitAll_of_none {u : List Char} (h : splitOnce u = none) : splitAll u = (u, []) := by
  rw [splitAll_eq u, h]

theorem splitAll_of_some {u : List Char} {b co n r} (h : splitOnce u = some (b, co, n, r)) :
    splitAll u = (b, (co, n, (splitAll r).1) :: (splitAll r).2) := by
  rw [splitAll_eq u, h]

theorem splitAll_snd_nil {u : List Char} (h : (splitAll u).2 = []) : (splitAll u).1 = u := by
  rcases hs : splitOnce u with _ | ⟨b, co, n, r⟩
  · rw [splitAll_of_none hs]
  · rw [splitAll_of_some hs] at h
    simp at h

theorem splitAll_reconstruct : ∀ (n : Nat) (u : List Char), u.length ≤ n →
    (splitAll u).1 ++ ((splitAll u).2.map fun p => p.1 ++ p.2.2).flatten = u := by
  intro n
  induction n with
  | zero =>
    intro u hu
    have h : u = [] := List.length_eq_zero.mp (Nat.le_zero.mp hu)
    subst h
    rfl
  | succ n ih =>
    intro u hu
    rcases hs : splitOnce u with _ | ⟨b, co, nm, r⟩
    · rw [splitAll_of_none hs]
      simp
    · rcases splitOnce_append hs with ⟨heq, hne⟩
      have hr : r.length ≤ n := by
        have hlt : r.length < u.length := splitOnce_rest_lt hs
        omega
      have hrec := ih r hr
      rw [splitAll_of_some hs]
      simp only [List.map_cons, List.flatten_cons]
      rw [heq, List.append_assoc co, hrec, List.append_assoc]

theorem concatStrings_asString : ∀ l : List (List Char),
    concatStrings (l.map List.asString) = l.flatten.asString
  | [] => rfl
  | a :: l => by
    have ih := concatStrings_asString l
    show a.asString ++ concatStrings (l.map List.asString) = (a ++ l.flatten).asString
    rw [ih]
    rfl

theorem pairwise_flatten_pairs : ∀ ps : List (String × String × String),
    pairwise ((ps.map fun p => [p.2.1, p.2.2]).flatten) = ps.map fun p => (p.2.1, p.2.2)
  | [] => rfl
  | p :: ps => by
    show pairwise (p.2.1 :: p.2.2 :: (ps.map fun q => [q.2.1, q.2.2]).flatten)
      = (p.2.1, p.2.2) :: ps.map fun q => (q.2.1, q.2.2)
    rw [pairwise, pairwise_flatten_pairs ps]

theorem splitWrites_pairs (stripped text : String) :
    splitWrites stripped text =
      (if (splitAllStr text).1 ≠ "" then [(stripped, (splitAllStr text).1)] else [])
      ++ (splitAllStr text).2.map fun p => (p.2.1, p.2.2) := by
  simp only [splitWrites, reSplit, List.headD_cons, List.tail_cons]
  rw [pairwise_flatten_pairs]

end SplitLemmas

/-- Claim C1: tokenizing against the marker pattern yields equally many
target names and non-preamble segments, and the splitter's write
sequence is, after the optional preamble write, exactly the (target
name, segment text) pairs in document order, each segment written
verbatim under its target name. -/
theorem claim1_pairing (stripped text : String) :
    ((splitAllStr text).2.map fun p => p.2.1).length
      = ((splitAllStr text).2.map fun p => p.2.2).length
    ∧ splitWrites stripped text =
        (if (splitAllStr text).1 ≠ "" then [(stripped, (splitAllStr text).1)] else [])
        ++ (((splitAllStr text).2.map fun p => p.2.1).zip
            ((splitAllStr text).2.map fun p => p.2.2)) := by
  constructor
  · simp
  · rw [List.zip_map']
    exact splitWrites_pairs stripped text

/-- Claim C2: concatenating, in document order, the matched marker lines
and their following segments, with the preamble segment first,
reconstructs the original input byte for byte. -/
theorem claim2_roundtrip (t : String) :
    (splitAllStr t).1 ++ concatStrings ((splitAllStr t).2.map fun p => p.1 ++ p.2.2) = t := by
  have h := splitAll_reconstruct t.data.length t.data (Nat.le_refl _)
  show (splitAll t.data).1.asString ++ concatStrings
      (((splitAll t.data).2.map fun p =>
        (p.1.asString, p.2.1.asString, p.2.2.asString)).map fun p => p.1 ++ p.2.2) = t
  rw [List.map_map]
  have hmap : ((splitAll t.data).2.map
        ((fun p : String × String × String => p.1 ++ p.2.2) ∘
          fun p : List Char × List Char × List Char =>
            (p.1.asString, p.2.1.asString, p.2.2.asString)))
      = ((splitAll t.data).2.map fun p => p.1 ++ p.2.2).map List.asString := by
    rw [List.map_map]
    rfl
  rw [hmap, concatStrings_asString]
  show ((splitAll t.data).1 ++ ((splitAll t.data).2.map fun p => p.1 ++ p.2.2).flatten).asString = t
  rw [h]
  rfl

/-- Claim C5: with N markers (N at least 1), the splitter performs
exactly N+1 file writes when the preamble segment is non-empty and
exactly N when it is empty. -/
theorem claim5_output_count (stripped text : String)
    (_hN : 1 ≤ (splitAllStr text).2.length) :
    ((splitAllStr text).1 ≠ "" →
      (splitWrites stripped text).length = (splitAllStr text).2.length + 1)
    ∧ ((splitAllStr text).1 = "" →
      (splitWrites stripped text).length = (splitAllStr text).2.length) := by
  constructor
  · intro hpre
    rw [splitWrites_pairs, if_pos hpre]
    simp only [List.length_append, List.length_map, List.length_cons, List.length_nil]
    omega
  · intro hpre
    rw [splitWrites_pairs, if_neg (by simp [hpre])]
    simp

/-- Witness for claim C5 at a concrete input with one marker and a
non-empty preamble. -/
theorem claim5_witness :
    (splitWrites "m" "p\n// FILE: x\na a\n").length
      = (splitAllStr "p\n// FILE: x\na a\n").2.length + 1 :=
  (claim5_output_count "m" "p\n// FILE: x\na a\n" (by decide)).1 (by decide)

/-- Claim C6: with zero markers, a non-empty input is written unchanged
to the single preamble file, and an empty input produces no write. -/
theorem claim6_no_marker (stripped text : String) (h : (splitAllStr text).2 = []) :
    (text ≠ "" → splitWrites stripped text = [(stripped, text)])
    ∧ (text = "" → splitWrites stripped text = []) := by
  have h2 : (splitAll text.data).2 = [] := by
    simpa [splitAllStr] using h
  have h1 : (splitAllStr text).1 = text := by
    show (splitAll text.data).1.asString = text
    rw [splitAll_snd_nil h2]
    rfl
  constructor
  · intro ht
    rw [splitWrites_pairs, h1, h, if_pos ht]
    simp
  · intro ht
    rw [splitWrites_pairs, h1, h, if_neg (by simp [ht])]
    simp

/-- Witness for claim C6 at the spec's first example: input `"hello\n"`
with stripped path `a` yields the single write `a ↦ "hello\n"`. -/
theorem claim6_witness : splitWrites "a" "hello\n" = [("a", "hello\n")] :=
  (claim6_no_marker "a" "hello\n" (by decide)).1 (by decide)

/-- Claim C7: with a wrong argument count, or an input path whose
extension is not `.split`, the program stops with an assertion message
and its event trace is empty: no file is opened, read or written. -/
theorem claim7_validation_before_io (argv : List String) (content : String)
    (h : argv.length ≠ 2 ∨ (splitext (argv.getD 1 "")).2 ≠ ".split") :
    (runSplitter argv content).1 = [] ∧ (runSplitter argv content).2.isSome = true := by
  by_cases h1 : argv.length < 2
  · rw [runSplitter, if_pos h1]
    exact ⟨rfl, rfl⟩
  · by_cases h2 : 2 < argv.length
    · rw [runSplitter, if_neg h1, if_pos h2]
      exact ⟨rfl, rfl⟩
    · have hext : (splitext (argv.getD 1 "")).2 ≠ ".split" := by
        rcases h with h | h
        · omega
        · exact h
      rw [runSplitter, if_neg h1, if_neg h2]
      show ((if (splitext (argv.getD 1 "")).2 ≠ ".split" then _ else _ :
          List FileEvent × Option String)).1 = [] ∧ _
      rw [if_pos hext]
      exact ⟨rfl, rfl⟩

/-- Witness for claim C7 at a concrete argument vector with no path
argument. -/
theorem claim7_witness :
    (runSplitter ["split.py"] "x").1 = [] ∧ (runSplitter ["split.py"] "x").2.isSome = true :=
  claim7_validation_before_io ["split.py"] "x" (Or.inl (by decide))

section WriteFoldLemmas

theorem foldl_lastWrite (nm : String) : ∀ (ws : List (String × String)) (a : Option String),
    ws.foldl (fun acc w => if w.1 = nm then some w.2 else acc) a
      = (lastWriteOf ws nm).or a := by
  intro ws
  induction ws with
  | nil => intro a; rfl
  | cons w ws ih =>
    intro a
    show ws.foldl _ (if w.1 = nm then some w.2 else a) = ((w :: ws).foldl _ none).or a
    rw [ih]
    show _ = ((ws.foldl _ (if w.1 = nm then some w.2 else none)).or a)
    rw [ih]
    rcases lastWriteOf ws nm with _ | c
    · by_cases hw : w.1 = nm
      · rw [if_pos hw, if_pos hw]
        rfl
      · rw [if_neg hw, if_neg hw]
        rfl
    · rfl

theorem applyWrites_eq_lastWriteOf :
    ∀ (ws : List (String × String)) (fs : String → Option String) (nm : String),
    applyWrites ws fs nm = (lastWriteOf ws nm).or (fs nm) := by
  intro ws
  induction ws with
  | nil => intro fs nm; rfl
  | cons w ws ih =>
    intro fs nm
    show applyWrites ws (fun n => if n = w.1 then some w.2 else fs n) nm = _
    rw [ih]
    have hcons : lastWriteOf (w :: ws) nm
        = (lastWriteOf ws nm).or (if w.1 = nm then some w.2 else none) := by
      show ws.foldl _ (if w.1 = nm then some w.2 else none) = _
      rw [foldl_lastWrite]
    rw [hcons]
    rcases lastWriteOf ws nm with _ | c
    · by_cases hw : w.1 = nm
      · subst hw
        rw [if_pos rfl, if_pos rfl]
        rfl
      · rw [if_neg hw, if_neg fun h => hw h.symm]
        rfl
    · rfl

end WriteFoldLemmas

/-- Claim C8: writes are applied in document order and each write fully
replaces the file's contents, so when a target name is written several
times the file ends up holding the contents of the last write, with no
merge and no error; in particular for the duplicate target name `a`
below, the later segment wins. -/
theorem claim8_last_write_wins :
    (∀ (stripped text : String) (fs : String → Option String) (nm : String),
      applyWrites (splitWrites stripped text) fs nm
        = (lastWriteOf (splitWrites stripped text) nm).or (fs nm))
    ∧ applyWrites (splitWrites "m" "// FILE: a\nx x\n// FILE: a\ny y\n")
        (fun _ => none) "a" = some "y y\n" := by
  constructor
  · intro stripped text fs nm
    exact applyWrites_eq_lastWriteOf (splitWrites stripped text) fs nm
  · decide

/-- Claim C9: every marker yields exactly one file write (the number of
written pairs equals the number of matches), and a marker immediately
followed by another marker, or standing at the end of the input, is
written with empty contents. -/
theorem claim9_empty_segments :
    (∀ text : String, (pairwise (reSplit text).tail).length = (splitAllStr text).2.length)
    ∧ splitWrites "m" "// FILE: a\n// FILE: b\nx x\n" = [("a", ""), ("b", "x x\n")]
    ∧ splitWrites "m" "x x\n// FILE: c\n" = [("m", "x x\n"), ("c", "")] := by
  refine ⟨fun text => ?_, by decide, by decide⟩
  simp only [reSplit, List.tail_cons]
  rw [pairwise_flatten_pairs]
  simp

section ShapeLemmas

theorem matchSpacesNl_shape : ∀ {u : List Char} {p},
    matchSpacesNl u = some p → ∃ k, p.1 = spacesChars k ++ ['\n'] := by
  intro u
  induction u with
  | nil => intro p h; simp [matchSpacesNl] at h
  | cons c rest ih =>
    intro p h
    simp only [matchSpacesNl] at h
    by_cases hn : c = '\n'
    · rw [if_pos hn] at h
      injection h with h
      subst h
      exact ⟨0, by simp [spacesChars, hn]⟩
    · rw [if_neg hn] at h
      by_cases hs : c = ' '
      · rw [if_pos hs] at h
        rcases Option.map_eq_some'.mp h with ⟨q, hq, hpq⟩
        rcases ih hq with ⟨k, hk⟩
        subst hpq
        exact ⟨k + 1, by simp [spacesChars, List.replicate_succ, hk, hs]⟩
      · rw [if_neg hs] at h
        simp at h

theorem matchStarTail_shape : ∀ {u : List Char} {t},
    matchStarTail u = some t → ' ' ∉ t.1 ∧ ∃ k, t.2.1 = t.1 ++ spacesChars k ++ ['\n'] := by
  intro u
  induction u with
  | nil => intro t h; simp [matchStarTail] at h
  | cons c rest ih =>
    intro t h
    simp only [matchStarTail] at h
    by_cases hs : c = ' '
    · rw [if_pos hs] at h
      rcases Option.map_eq_some'.mp h with ⟨q, hq, hpq⟩
      rcases matchSpacesNl_shape hq with ⟨k, hk⟩
      subst hpq
      exact ⟨by simp, k, by simpa using hk⟩
    · rw [if_neg hs] at h
      rcases hrec : matchStarTail rest with _ | ⟨g, go, gr⟩
      · rw [hrec] at h
        rcases Option.map_eq_some'.mp h with ⟨q, hq, hpq⟩
        rcases matchSpacesNl_shape hq with ⟨k, hk⟩
        subst hpq
        exact ⟨by simp, k, by simpa using hk⟩
      · rw [hrec] at h
        injection h with h
        subst h
        rcases ih hrec with ⟨hg, k, hk⟩
        have hk2 : go = g ++ spacesChars k ++ ['\n'] := hk
        constructor
        · intro hmem
          rcases List.mem_cons.mp hmem with h1 | h1
          · exact hs h1.symm
          · exact hg h1
        · exact ⟨k, by simp [hk2, List.append_assoc]⟩

theorem matchNamePart_shape : ∀ {u : List Char} {t},
    matchNamePart u = some t →
      t.1 ≠ [] ∧ ' ' ∉ t.1 ∧ ∃ k, t.2.1 = t.1 ++ spacesChars k ++ ['\n'] := by
  intro u t h
  match u with
  | [] => simp [matchNamePart] at h
  | c :: rest =>
    simp only [matchNamePart] at h
    by_cases hs : c = ' '
    · rw [if_pos hs] at h; simp at h
    · rw [if_neg hs] at h
      rcases Option.map_eq_some'.mp h with ⟨q, hq, hpq⟩
      rcases matchStarTail_shape hq with ⟨hg, k, hk⟩
      subst hpq
      refine ⟨by simp, ?_, k, by simp [hk]⟩
      intro hmem
      rcases List.mem_cons.mp hmem with h1 | h1
      · exact hs h1.symm
      · exact hg h1

theorem matchSpacesThenName_shape : ∀ {u : List Char} {t},
    matchSpacesThenName u = some t →
      t.1 ≠ [] ∧ ' ' ∉ t.1 ∧ ∃ j k, t.2.1 = spacesChars j ++ t.1 ++ spacesChars k ++ ['\n'] := by
  intro u
  induction u with
  | nil => intro t h; simp [matchSpacesThenName] at h
  | cons c rest ih =>
    intro t h
    simp only [matchSpacesThenName] at h
    by_cases hs : c = ' '
    · rw [if_pos hs] at h
      rcases hrec : matchSpacesThenName rest with _ | ⟨n, no, nr⟩
      · rw [hrec] at h
        rcases matchNamePart_shape h with ⟨hne, hsp, k, hk⟩
        exact ⟨hne, hsp, 0, k, by simpa [spacesChars] using hk⟩
      · rw [hrec] at h
        injection h with h
        subst h
        rcases ih hrec with ⟨hne, hsp, j, k, hk⟩
        have hk2 : no = spacesChars j ++ n ++ spacesChars k ++ ['\n'] := hk
        exact ⟨hne, hsp, j + 1, k,
          by simp [spacesChars, List.replicate_succ, hk2, hs, List.append_assoc]⟩
    · rw [if_neg hs] at h
      rcases matchNamePart_shape h with ⟨hne, hsp, k, hk⟩
      exact ⟨hne, hsp, 0, k, by simpa [spacesChars] using hk⟩

theorem tryFILE_shape : ∀ {u : List Char} {t},
    tryFILE u = some t →
      t.1 ≠ [] ∧ ' ' ∉ t.1 ∧ ∃ j k,
        t.2.1 = 'F' :: 'I' :: 'L' :: 'E' :: ':' ::
          (spacesChars j ++ t.1 ++ spacesChars k ++ ['\n']) := by
  intro u t h
  match u with
  | [] => simp [tryFILE] at h
  | [c1] => simp [tryFILE] at h
  | [c1, c2] => simp [tryFILE] at h
  | [c1, c2, c3] => simp [tryFILE] at h
  | [c1, c2, c3, c4] => simp [tryFILE] at h
  | c1 :: c2 :: c3 :: c4 :: c5 :: rest =>
    simp only [tryFILE] at h
    split at h
    · rename_i hc
      obtain ⟨h1, h2, h3, h4, h5⟩ := hc
      subst h1; subst h2; subst h3; subst h4; subst h5
      rcases Option.map_eq_some'.mp h with ⟨q, hq, hpq⟩
      rcases matchSpacesThenName_shape hq with ⟨hne, hsp, j, k, hk⟩
      subst hpq
      exact ⟨hne, hsp, j, k, by simp [hk]⟩
    · simp at h

theorem matchAfterSlashes_shape : ∀ {u : List Char} {t},
    matchAfterSlashes u = some t →
      t.1 ≠ [] ∧ ' ' ∉ t.1 ∧ ∃ i j k,
        t.2.1 = spacesChars i ++ ('F' :: 'I' :: 'L' :: 'E' :: ':' ::
          (spacesChars j ++ t.1 ++ spacesChars k ++ ['\n'])) := by
  intro u
  induction u with
  | nil => intro t h; simp [matchAfterSlashes] at h
  | cons c rest ih =>
    intro t h
    simp only [matchAfterSlashes] at h
    by_cases hs : c = ' '
    · rw [if_pos hs] at h
      rcases hrec : matchAfterSlashes rest with _ | ⟨n, no, nr⟩
      · rw [hrec] at h
        rcases tryFILE_shape h with ⟨hne, hsp, j, k, hk⟩
        exact ⟨hne, hsp, 0, j, k, by simpa [spacesChars] using hk⟩
      · rw [hrec] at h
        injection h with h
        subst h
        rcases ih hrec with ⟨hne, hsp, i, j, k, hk⟩
        have hk2 : no = spacesChars i ++ ('F' :: 'I' :: 'L' :: 'E' :: ':' ::
            (spacesChars j ++ n ++ spacesChars k ++ ['\n'])) := hk
        exact ⟨hne, hsp, i + 1, j, k,
          by simp [spacesChars, List.replicate_succ, hk2, hs, List.append_assoc]⟩
    · rw [if_neg hs] at h
      rcases tryFILE_shape h with ⟨hne, hsp, j, k, hk⟩
      exact ⟨hne, hsp, 0, j, k, by simpa [spacesChars] using hk⟩

theorem matchMarkerAt_shape : ∀ {u : List Char} {t},
    matchMarkerAt u = some t → markerShape t.2.1 t.1 := by
  intro u t h
  match u with
  | [] => simp [matchMarkerAt] at h
  | [c1] => simp [matchMarkerAt] at h
  | c1 :: c2 :: rest =>
    simp only [matchMarkerAt] at h
    split at h
    · rename_i hc
      obtain ⟨h1, h2⟩ := hc
      subst h1; subst h2
      rcases Option.map_eq_some'.mp h with ⟨q, hq, hpq⟩
      rcases matchAfterSlashes_shape hq with ⟨hne, hsp, i, j, k, hk⟩
      subst hpq
      exact ⟨i, j, k, by simp [hk], hne, hsp⟩
    · simp at h

end ShapeLemmas

section CompletenessLemmas

theorem matchSpacesNl_complete : ∀ (k : Nat) (r : List Char),
    matchSpacesNl (spacesChars k ++ '\n' :: r) = some (spacesChars k ++ ['\n'], r) := by
  intro k
  induction k with
  | zero =>
    intro r
    simp [spacesChars, matchSpacesNl]
  | succ k ih =>
    intro r
    show matchSpacesNl (' ' :: (spacesChars k ++ '\n' :: r)) = _
    simp [matchSpacesNl, spacesChars, List.replicate_succ]
    exact ih r

theorem matchStarTail_complete : ∀ (g : List Char) (k : Nat) (r : List Char), ' ' ∉ g →
    (matchStarTail (g ++ spacesChars k ++ '\n' :: r)).isSome = true := by
  intro g
  induction g with
  | nil =>
    intro k r _
    match k with
    | 0 =>
      show (matchStarTail ('\n' :: r)).isSome = true
      simp only [matchStarTail]
      rw [if_neg (by decide)]
      rcases hrec : matchStarTail r with _ | ⟨g, go, gr⟩
      · have hnl := matchSpacesNl_complete 0 r
        simp only [spacesChars, List.replicate, List.nil_append] at hnl
        simp [hnl]
      · simp
    | k + 1 =>
      show (matchStarTail (' ' :: (spacesChars k ++ '\n' :: r))).isSome = true
      simp only [matchStarTail]
      simp only [if_true]
      have hnl : matchSpacesNl (' ' :: (spacesChars k ++ '\n' :: r))
          = some (' ' :: (spacesChars k ++ ['\n']), r) := matchSpacesNl_complete (k + 1) r
      rw [hnl]
      simp
  | cons c g' ih =>
    intro k r hsp
    have hc : c ≠ ' ' := fun h => hsp (by simp [h])
    show (matchStarTail (c :: (g' ++ spacesChars k ++ '\n' :: r))).isSome = true
    simp only [matchStarTail]
    rw [if_neg hc]
    have hrec := ih k r fun h => hsp (List.mem_cons_of_mem c h)
    rcases hsome : matchStarTail (g' ++ spacesChars k ++ '\n' :: r) with _ | ⟨g, go, gr⟩
    · rw [hsome] at hrec; simp at hrec
    · simp

theorem matchNamePart_complete : ∀ (nm : List Char) (k : Nat) (r : List Char),
    nm ≠ [] → ' ' ∉ nm →
    (matchNamePart (nm ++ spacesChars k ++ '\n' :: r)).isSome = true := by
  intro nm k r hne hsp
  match nm, hne with
  | c :: nm', _ =>
    have hc : c ≠ ' ' := fun h => hsp (by simp [h])
    show (matchNamePart (c :: (nm' ++ spacesChars k ++ '\n' :: r))).isSome = true
    simp only [matchNamePart]
    rw [if_neg hc]
    have hrec := matchStarTail_complete nm' k r fun h => hsp (List.mem_cons_of_mem c h)
    rcases hsome : matchStarTail (nm' ++ spacesChars k ++ '\n' :: r) with _ | t
    · rw [hsome] at hrec; simp at hrec
    · simp

theorem matchSpacesThenName_complete : ∀ (j : Nat) (nm : List Char) (k : Nat) (r : List Char),
    nm ≠ [] → ' ' ∉ nm →
    (matchSpacesThenName (spacesChars j ++ nm ++ spacesChars k ++ '\n' :: r)).isSome = true := by
  intro j
  induction j with
  | zero =>
    intro nm k r hne hsp
    match nm, hne with
    | c :: nm', _ =>
      have hc : c ≠ ' ' := fun h => hsp (by simp [h])
      show (matchSpacesThenName (c :: (nm' ++ spacesChars k ++ '\n' :: r))).isSome = true
      simp only [matchSpacesThenName]
      rw [if_neg hc]
      exact matchNamePart_complete (c :: nm') k r (by simp) hsp
  | succ j ih =>
    intro nm k r hne hsp
    show (matchSpacesThenName
      (' ' :: (spacesChars j ++ nm ++ spacesChars k ++ '\n' :: r))).isSome = true
    simp only [matchSpacesThenName]
    simp only [if_true]
    have hrec := ih nm k r hne hsp
    rcases hsome : matchSpacesThenName (spacesChars j ++ nm ++ spacesChars k ++ '\n' :: r)
      with _ | ⟨n, no, nr⟩
    · rw [hsome] at hrec; simp at hrec
    · simp

theorem tryFILE_complete : ∀ (j : Nat) (nm : List Char) (k : Nat) (r : List Char),
    nm ≠ [] → ' ' ∉ nm →
    (tryFILE ('F' :: 'I' :: 'L' :: 'E' :: ':' ::
      (spacesChars j ++ nm ++ spacesChars k ++ '\n' :: r))).isSome = true := by
  intro j nm k r hne hsp
  simp only [tryFILE]
  simp only [and_self, and_true, if_true]
  have hrec := matchSpacesThenName_complete j nm k r hne hsp
  rcases hsome : matchSpacesThenName (spacesChars j ++ nm ++ spacesChars k ++ '\n' :: r)
    with _ | t
  · rw [hsome] at hrec; simp at hrec
  · simp

theorem matchAfterSlashes_complete : ∀ (i j : Nat) (nm : List Char) (k : Nat) (r : List Char),
    nm ≠ [] → ' ' ∉ nm →
    (matchAfterSlashes (spacesChars i ++ ('F' :: 'I' :: 'L' :: 'E' :: ':' ::
      (spacesChars j ++ nm ++ spacesChars k ++ '\n' :: r)))).isSome = true := by
  intro i
  induction i with
  | zero =>
    intro j nm k r hne hsp
    show (matchAfterSlashes ('F' :: 'I' :: 'L' :: 'E' :: ':' ::
      (spacesChars j ++ nm ++ spacesChars k ++ '\n' :: r))).isSome = true
    simp only [matchAfterSlashes]
    rw [if_neg (by decide)]
    exact tryFILE_complete j nm k r hne hsp
  | succ i ih =>
    intro j nm k r hne hsp
    show (matchAfterSlashes (' ' :: (spacesChars i ++ ('F' :: 'I' :: 'L' :: 'E' :: ':' ::
      (spacesChars j ++ nm ++ spacesChars k ++ '\n' :: r))))).isSome = true
    simp only [matchAfterSlashes]
    simp only [if_true]
    have hrec := ih j nm k r hne hsp
    rcases hsome : matchAfterSlashes (spacesChars i ++ ('F' :: 'I' :: 'L' :: 'E' :: ':' ::
      (spacesChars j ++ nm ++ spacesChars k ++ '\n' :: r))) with _ | ⟨n, no, nr⟩
    · rw [hsome] at hrec; simp at hrec
    · simp

theorem matchMarkerAt_complete : ∀ (i j : Nat) (nm : List Char) (k : Nat) (r : List Char),
    nm ≠ [] → ' ' ∉ nm →
    (matchMarkerAt ('/' :: '/' :: (spacesChars i ++ ('F' :: 'I' :: 'L' :: 'E' :: ':' ::
      (spacesChars j ++ nm ++ spacesChars k ++ '\n' :: r))))).isSome = true := by
  intro i j nm k r hne hsp
  simp only [matchMarkerAt]
  simp only [and_self, and_true, if_true]
  have hrec := matchAfterSlashes_complete i j nm k r hne hsp
  rcases hsome : matchAfterSlashes (spacesChars i ++ ('F' :: 'I' :: 'L' :: 'E' :: ':' ::
    (spacesChars j ++ nm ++ spacesChars k ++ '\n' :: r))) with _ | ⟨n, no, nr⟩
  · rw [hsome] at hrec; simp at hrec
  · simp

end CompletenessLemmas

/-- Claim C3 (amended): the recognizer accepts at the start of a string
exactly when a prefix of it has the code's marker shape — exactly two
`/` characters, zero or more spaces, the literal `FILE:`, zero or more
spaces, a non-empty run of non-space characters (the captured target
name, which may contain newlines), zero or more spaces, then a newline —
and every accepted match consumes exactly such a prefix, capturing that
run as the target name. -/
theorem claim3_marker_pattern (s : List Char) :
    (∀ t, matchMarkerAt s = some t → s = t.2.1 ++ t.2.2 ∧ markerShape t.2.1 t.1)
    ∧ ((∃ co n rest, s = co ++ rest ∧ markerShape co n) →
        (matchMarkerAt s).isSome = true) := by
  constructor
  · intro t h
    exact ⟨(matchMarkerAt_append h).1, matchMarkerAt_shape h⟩
  · rintro ⟨co, n, rest, rfl, i, j, k, rfl, hne, hsp⟩
    have h := matchMarkerAt_complete i j n k rest hne hsp
    simpa [List.append_assoc] using h

/-- Witness for claim C3 at the concrete marker `//FILE:a` followed by a
newline. -/
theorem claim3_witness : (matchMarkerAt ("//FILE:a\n".data)).isSome = true :=
  (claim3_marker_pattern "//FILE:a\n".data).2
    ⟨"//FILE:a\n".data, ['a'], [], by decide, 0, 0, 0, by decide, by decide, by decide⟩

/-- Counterexample to claim C3 as stated: the full line `FILE: x` (zero
`/` characters) matches the claimed pattern, yet the program recognizes
no marker anywhere in it, because the code's pattern requires two
literal slashes. -/
theorem claim3_counterexample :
    specLineIsMarker "FILE: x\n" = true ∧ splitAllStr "FILE: x\n" = ("FILE: x\n", []) :=
  ⟨by decide, by decide⟩

section MidlineLemmas

theorem matchMarkerAt_cons_none {c : Char} {rest : List Char} (hc : c ≠ '/') :
    matchMarkerAt (c :: rest) = none := by
  match rest with
  | [] => rfl
  | c2 :: rest' =>
    simp only [matchMarkerAt]
    rw [if_neg fun h => hc h.1]

theorem matchStarTail_name : ∀ {nm : List Char}, ' ' ∉ nm →
    matchStarTail (nm ++ ['\n']) = some (nm, nm ++ ['\n'], []) := by
  intro nm
  induction nm with
  | nil =>
    intro _
    rfl
  | cons c nm' ih =>
    intro hsp
    have hc : c ≠ ' ' := fun h => hsp (by simp [h])
    show matchStarTail (c :: (nm' ++ ['\n'])) = _
    simp only [matchStarTail]
    rw [if_neg hc, ih fun h => hsp (List.mem_cons_of_mem c h)]
    rfl

theorem matchNamePart_name {nm : List Char} (hne : nm ≠ []) (hsp : ' ' ∉ nm) :
    matchNamePart (nm ++ ['\n']) = some (nm, nm ++ ['\n'], []) := by
  match nm, hne with
  | c :: nm', _ =>
    have hc : c ≠ ' ' := fun h => hsp (by simp [h])
    show matchNamePart (c :: (nm' ++ ['\n'])) = _
    simp only [matchNamePart]
    rw [if_neg hc, matchStarTail_name fun h => hsp (List.mem_cons_of_mem c h)]
    rfl

theorem matchMarkerAt_name {nm : List Char} (hne : nm ≠ []) (hsp : ' ' ∉ nm) :
    matchMarkerAt ('/' :: '/' :: ' ' :: 'F' :: 'I' :: 'L' :: 'E' :: ':' :: ' ' :: (nm ++ ['\n']))
      = some (nm,
          '/' :: '/' :: ' ' :: 'F' :: 'I' :: 'L' :: 'E' :: ':' :: ' ' :: (nm ++ ['\n']), []) := by
  have h1 : matchSpacesThenName (nm ++ ['\n']) = some (nm, nm ++ ['\n'], []) := by
    match nm, hne with
    | c :: nm', _ =>
      have hc : c ≠ ' ' := fun h => hsp (by simp [h])
      show matchSpacesThenName (c :: (nm' ++ ['\n'])) = _
      simp only [matchSpacesThenName]
      rw [if_neg hc]
      exact matchNamePart_name (List.cons_ne_nil c nm') hsp
  simp [matchMarkerAt, matchAfterSlashes, tryFILE, matchSpacesThenName, h1]

theorem splitOnce_clean_prefix : ∀ {b : List Char} {u : List Char} {n co r},
    (∀ c ∈ b, c ≠ '/') → matchMarkerAt u = some (n, co, r) →
    splitOnce (b ++ u) = some (b, co, n, r) := by
  intro b
  induction b with
  | nil =>
    intro u n co r _ hm
    match u, hm with
    | [], hm => simp [matchMarkerAt] at hm
    | c :: cs, hm =>
      show splitOnce (c :: cs) = _
      simp only [splitOnce]
      rw [hm]
  | cons c b' ih =>
    intro u n co r hb hm
    show splitOnce (c :: (b' ++ u)) = _
    simp only [splitOnce]
    rw [matchMarkerAt_cons_none (hb c (by simp)), ih (fun x hx => hb x (by simp [hx])) hm]
    rfl

end MidlineLemmas

/-- Claim C4 (amended): a marker is recognized wherever the pattern
matches, including in the middle of a line: here any preceding text
without slashes, even on the same line with no newline before the `//`,
still leaves the marker recognized, the preceding text going to the
preceding segment. -/
theorem claim4_midline_marker (b nm : List Char)
    (hb : ∀ c ∈ b, c ≠ '/') (hne : nm ≠ []) (hsp : ' ' ∉ nm) :
    splitAll (b ++ ('/' :: '/' :: ' ' :: 'F' :: 'I' :: 'L' :: 'E' :: ':' :: ' ' ::
        (nm ++ ['\n'])))
      = (b, [('/' :: '/' :: ' ' :: 'F' :: 'I' :: 'L' :: 'E' :: ':' :: ' ' ::
          (nm ++ ['\n']), nm, [])]) := by
  have hm := matchMarkerAt_name hne hsp
  have hs := splitOnce_clean_prefix hb hm
  rw [splitAll_of_some hs]
  rfl

/-- Witness for claim C4: the text `abc` standing before the marker on
the same line does not prevent recognition of the marker for `x`. -/
theorem claim4_witness :
    splitAll ("abc".data ++ ('/' :: '/' :: ' ' :: 'F' :: 'I' :: 'L' :: 'E' :: ':' :: ' ' ::
        ("x".data ++ ['\n'])))
      = ("abc".data, [('/' :: '/' :: ' ' :: 'F' :: 'I' :: 'L' :: 'E' :: ':' :: ' ' ::
          ("x".data ++ ['\n']), "x".data, [])]) :=
  claim4_midline_marker "abc".data "x".data (by decide) (by decide) (by decide)

/-- Counterexample to claim C4 as stated: in the input `abc// FILE: x`
plus newline, the pattern occurrence begins mid-line (preceded by `abc`
on the same line) and the full line does not match the marker-line
pattern, yet the program does treat it as a marker for target `x`. -/
theorem claim4_counterexample :
    specLineIsMarker "abc// FILE: x\n" = false
    ∧ splitAllStr "abc// FILE: x\n" = ("abc", [("// FILE: x\n", "x", "")]) :=
  ⟨by decide, by decide⟩

/-- Claim C10: a marker line with no whitespace at all, `//FILE:name`
followed by a newline, is recognized as a marker with target name
`name`, written with its (here empty) following segment. -/
theorem claim10_no_whitespace_marker :
    splitAllStr "//FILE:name\n" = ("", [("//FILE:name\n", "name", "")])
    ∧ splitWrites "m" "//FILE:name\n" = [("name", "")] := by
  exact ⟨by decide, by decide⟩

end Split
